import Mathlib

/-!
Verification of the log rotation/retention housekeeping core of the JPPT
repository (`src/utils/logger.py`): the rename transform `_log_namer`, the
retention-duration parser `_parse_retention_days`, and the retention handler
produced by `_make_retention_handler` (rename pass + prune pass over a log
directory).

The embedding works on `List Char` as the string representation.  Python
`pathlib.PurePosixPath` is modelled by `PPath` (a root marker plus the list of
path components, with empty and `"."` components removed, and the special
POSIX `//` root preserved, exactly as pathlib does).  The file system is
modelled as an association list from normalized paths (`PPath`) to content
identifiers, plus a list of existing directories (used only for the
`log_dir.exists()` check).  Fallible OS calls (`os.remove`, `os.rename`)
return `Except Unit FS`.

Modelling notes, for faithfulness to the CPython semantics:
* `\d` and `\s` are modelled as ASCII digits / ASCII whitespace; file names
  containing non-ASCII digit code points are out of scope.
* Python's `$` regex anchor matches at the end of the string or just before a
  final trailing newline; both regexes of the source use `$`, so the matchers
  below accept an optional single trailing `'\n'`.
* `datetime.strptime(s, "%Y%m%d")` on an 8-digit string succeeds exactly when
  the digit pairs give a month in 01..12, a day in 01..31 that exists in the
  month, and a year of at least 1 (CPython's `_strptime` uses `\d\d\d\d` for
  `%Y` and ordered alternations for `%m`/`%d`; any 1-digit month or day match
  leaves unconverted data, which raises `ValueError`).
* `datetime` values are modelled as a civil-day number (Hinnant's
  days-from-civil algorithm, i.e. days since 1970-01-01) plus an abstract
  time-of-day, ordered lexicographically; `timedelta(days=k)` subtraction
  shifts the day number.
* Directory entries other than regular files, and OS failures other than
  missing files (permissions and the like), are out of scope.
-/

/-! ### Characters and small string utilities -/

/-- ASCII decimal digit, the model of the regex class `\d`. -/
def isDig (c : Char) : Bool := 48 ≤ c.toNat && c.toNat ≤ 57

/-- ASCII whitespace, the model of `\s` and of `str.strip()`'s character set. -/
def isSpc (c : Char) : Bool :=
  c.toNat = 32 || c.toNat = 9 || c.toNat = 10 || c.toNat = 13 || c.toNat = 11 || c.toNat = 12

def digitVal (c : Char) : Nat := c.toNat - 48

/-- Value of a digit string, the model of Python `int()` on a `\d+` group. -/
def natOfDigits (cs : List Char) : Nat := cs.foldl (fun n c => n * 10 + digitVal c) 0

/-- `startsWithL pat cs` is true when `pat` is a prefix of `cs`. -/
def startsWithL : List Char → List Char → Bool
  | [], _ => true
  | _ :: _, [] => false
  | p :: ps, c :: cs => if p = c then startsWithL ps cs else false

/-- Model of Python `str.strip()` (both ends, ASCII whitespace). -/
def pstrip (cs : List Char) : List Char :=
  (((cs.dropWhile isSpc).reverse).dropWhile isSpc).reverse

/-! ### The retention-duration parser `_parse_retention_days`

Source: `re.match(r"(\d+)\s*(day|days|week|weeks)", retention.strip())`; on no
match return 10; if the unit contains `week` multiply by 7.  The regex
alternation tries `day` before `days` and `week` before `weeks`, so the unit
group is effectively a prefix test for `day` / `week`; the leading `\d+` and
`\s*` are maximal since the unit begins with a letter. -/

/-- The regex match of `_parse_retention_days`: leading digits, optional
whitespace, then a unit word; returns the integer value and whether the unit
was the `week` alternative. -/
def retMatch (cs : List Char) : Option (Nat × Bool) :=
  let ds := cs.takeWhile isDig
  if ds.isEmpty then none
  else
    let rest := (cs.dropWhile isDig).dropWhile isSpc
    if startsWithL ['d', 'a', 'y'] rest then some (natOfDigits ds, false)
    else if startsWithL ['w', 'e', 'e', 'k'] rest then some (natOfDigits ds, true)
    else none

/-- Model of `_parse_retention_days` (`src/utils/logger.py:34`). -/
def parse_retention_days (retention : String) : Int :=
  match retMatch (pstrip retention.data) with
  | none => 10
  | some (v, w) => if w then (v : Int) * 7 else (v : Int)

example : parse_retention_days "10 days" = 10 := by decide
example : parse_retention_days "1 day" = 1 := by decide
example : parse_retention_days "2 weeks" = 14 := by decide
example : parse_retention_days "1 week" = 7 := by decide
example : parse_retention_days "invalid" = 10 := by decide
example : parse_retention_days "  3 weekend " = 21 := by decide
example : parse_retention_days "-3 days" = 10 := by decide
example : parse_retention_days "0 days" = 0 := by decide

/-! ### A model of `pathlib.PurePosixPath`

A parsed path is a root marker (`rel` for relative paths, `abs` for `/`,
`dblabs` for the POSIX-special `//` root, which pathlib preserves only when
the string has exactly two leading slashes) together with the list of
components, where empty components and `"."` components are dropped. -/

inductive Root where
  | rel : Root
  | abs : Root
  | dblabs : Root
deriving DecidableEq

structure PPath where
  root : Root
  parts : List (List Char)
deriving DecidableEq

/-- Split a character list at every `'/'`. -/
def splitSlash : List Char → List (List Char)
  | [] => [[]]
  | c :: cs =>
    match splitSlash cs with
    | [] => [[]]
    | p :: ps => if c = '/' then [] :: p :: ps else (c :: p) :: ps

/-- Root marker of a path string, following pathlib's leading-slash rules:
three or more leading slashes collapse to `/`, exactly two give the special
`//` root, one gives `/`. -/
def rootOf (cs : List Char) : Root :=
  if startsWithL ['/', '/', '/'] cs then Root.abs
  else if startsWithL ['/', '/'] cs then Root.dblabs
  else if startsWithL ['/'] cs then Root.abs
  else Root.rel

/-- Components kept by pathlib: nonempty and not `"."`. -/
def validComp (c : List Char) : Bool := !decide (c = []) && !decide (c = ['.'])

/-- Model of `PurePosixPath(s)`. -/
def parsePath (cs : List Char) : PPath :=
  ⟨rootOf cs, (splitSlash cs).filter validComp⟩

def rootChars : Root → List Char
  | Root.rel => []
  | Root.abs => ['/']
  | Root.dblabs => ['/', '/']

/-- Join components with `'/'`. -/
def interSlash : List (List Char) → List Char
  | [] => []
  | [p] => p
  | p :: q :: rest => p ++ '/' :: interSlash (q :: rest)

/-- Model of `str()` on a pure path (`"."` for the empty relative path). -/
def strP (p : PPath) : List Char :=
  match p.root, p.parts with
  | Root.rel, [] => ['.']
  | r, ps => rootChars r ++ interSlash ps

/-- Model of `PurePosixPath.name` (empty for a root-only or empty path). -/
def nameOf (p : PPath) : List Char := (p.parts.getLast?).getD []

/-- Index of the last `'.'` in a component, if any. -/
def rfindDot : List Char → Option Nat
  | [] => none
  | c :: cs =>
    match rfindDot cs with
    | some i => some (i + 1)
    | none => if c = '.' then some 0 else none

/-- Model of `PurePosixPath.stem`: the name up to its last dot, unless that
dot is the first or the last character of the name. -/
def stemOf (p : PPath) : List Char :=
  match rfindDot (nameOf p) with
  | some i => if 0 < i && i + 1 < (nameOf p).length then (nameOf p).take i else nameOf p
  | none => nameOf p

/-- Model of `PurePosixPath.suffix`. -/
def suffixOf (p : PPath) : List Char :=
  match rfindDot (nameOf p) with
  | some i => if 0 < i && i + 1 < (nameOf p).length then (nameOf p).drop i else []
  | none => []

/-- Model of `PurePosixPath.parent` (drop the last component; the parent of a
rootless empty path or of a bare root is itself, which the uniform
`dropLast` form also yields). -/
def parentP (p : PPath) : PPath := ⟨p.root, p.parts.dropLast⟩

/-- Model of the `/` operator, `PurePosixPath(...) / s`: an absolute right
operand replaces the path, otherwise its components are appended. -/
def joinP (p : PPath) (cs : List Char) : PPath :=
  let q := parsePath cs
  match q.root with
  | Root.rel => ⟨p.root, p.parts ++ q.parts⟩
  | _ => q

/-! ### The rotation-suffix regex and `_log_namer`

Source regex: `\.(\d{4})-(\d{2})-(\d{2})_\d{2}-\d{2}-\d{2}_\d+$`, used with
`re.search`, which yields the leftmost position whose tail matches.  The
trailing `\d+$` accepts one or more digits running to the end of the string,
or to just before a single final newline (Python `$`). -/

/-- The `\d+$` tail: nonempty digits, optionally followed by one final
newline. -/
def tailNumOk (r : List Char) : Bool :=
  !(r.takeWhile isDig).isEmpty &&
    (decide (r.dropWhile isDig = []) || decide (r.dropWhile isDig = ['\n']))

/-- Whether a character list is entirely a rotation suffix
`.YYYY-MM-DD_HH-MM-SS_<digits>`; returns the year, month and day groups. -/
def rotTail : List Char → Option (List Char × List Char × List Char)
  | '.' :: y1 :: y2 :: y3 :: y4 :: '-' :: m1 :: m2 :: '-' :: d1 :: d2 :: '_'
      :: h1 :: h2 :: '-' :: n1 :: n2 :: '-' :: s1 :: s2 :: '_' :: rest =>
    if isDig y1 && isDig y2 && isDig y3 && isDig y4 && isDig m1 && isDig m2 &&
        isDig d1 && isDig d2 && isDig h1 && isDig h2 && isDig n1 && isDig n2 &&
        isDig s1 && isDig s2 && tailNumOk rest
    then some ([y1, y2, y3, y4], [m1, m2], [d1, d2])
    else none
  | _ => none

/-- The `re.search` of the source: the position of the leftmost tail match,
with the captured year/month/day groups.  The second argument is the index of
the head of the scanned remainder within the original string. -/
def findRotAux : List Char → Nat → Option (Nat × List Char × List Char × List Char)
  | [], _ => none
  | c :: cs, i =>
    match rotTail (c :: cs) with
    | some g => some (i, g)
    | none => findRotAux cs (i + 1)

/-- Whether a raw path string matches the rotation-suffix regex. -/
def rawMatches (s : String) : Bool := (findRotAux s.data 0).isSome

/-- Model of `_log_namer` (`src/utils/logger.py:17`) on character lists. -/
def logNamerL (cs : List Char) : List Char :=
  match findRotAux cs 0 with
  | none => cs
  | some (i, y, m, d) =>
    let base := cs.take i
    let pb := parsePath base
    strP (joinP (parsePath (strP (parentP pb)))
      (stemOf pb ++ '_' :: (y ++ m ++ d ++ suffixOf pb)))

/-- Model of `_log_namer`. -/
def log_namer (filepath : String) : String := String.mk (logNamerL filepath.data)

example : log_namer "/logs/app.log.2026-02-06_00-00-00_000000" = "/logs/app_20260206.log" := by
  decide
example :
    log_namer "/logs/app_batch.log.2026-01-15_23-59-59_999999" = "/logs/app_batch_20260115.log" := by
  decide
example : log_namer "/logs/app.log" = "/logs/app.log" := by decide
example : log_namer "app.log.2026-02-06_00-00-00_000000" = "app_20260206.log" := by decide
example : log_namer "a/b//app.log.2026-02-06_00-00-00_7" = "a/b/app_20260206.log" := by decide

/-! ### Dates: `strptime("%Y%m%d")`, `datetime` values and `timedelta` -/

/-- Gregorian leap year. -/
def isLeap (y : Nat) : Bool := (y % 4 = 0 && y % 100 ≠ 0) || y % 400 = 0

def daysInMonth (y m : Nat) : Nat :=
  if m = 2 then (if isLeap y then 29 else 28)
  else if m = 4 || m = 6 || m = 9 || m = 11 then 30
  else 31

/-- Model of `datetime.strptime(s, "%Y%m%d")` on the captured 8-character
group: CPython's `_strptime` matches `%Y` as exactly four digits and `%m`/`%d`
as one- or two-digit alternations, raising `ValueError` unless the whole
string is consumed, which forces the 4+2+2 split; `datetime` construction then
requires a month in 1..12, a day within the month, and a year of at least 1.
Returns `(year, month, day)` on success. -/
def strptimeYmd (cs : List Char) : Option (Nat × Nat × Nat) :=
  match cs with
  | [c1, c2, c3, c4, c5, c6, c7, c8] =>
    if [c1, c2, c3, c4, c5, c6, c7, c8].all isDig then
      let y := natOfDigits [c1, c2, c3, c4]
      let m := digitVal c5 * 10 + digitVal c6
      let d := digitVal c7 * 10 + digitVal c8
      if 1 ≤ y && 1 ≤ m && m ≤ 12 && 1 ≤ d && d ≤ daysInMonth y m then some (y, m, d)
      else none
    else none
  | _ => none

/-- Days since 1970-01-01 of a civil date (Hinnant's days-from-civil
algorithm, restricted to years ≥ 1 as produced by `strptimeYmd`). -/
def daysFromCivilN (y m d : Nat) : Int :=
  let y2 := if m ≤ 2 then y - 1 else y
  let era := y2 / 400
  let yoe := y2 - era * 400
  let mp := if 2 < m then m - 3 else m + 9
  let doy := (153 * mp + 2) / 5 + d - 1
  let doe := yoe * 365 + yoe / 4 - yoe / 100 + doy
  ((era * 146097 + doe : Nat) : Int) - 719468

example : daysFromCivilN 1970 1 1 = 0 := by decide
example : daysFromCivilN 2026 2 6 = 20490 := by decide
example : daysFromCivilN 2020 1 1 = 18262 := by decide
example : daysFromCivilN 2000 3 1 = 11017 := by decide

/-- A `datetime.datetime` value: civil day number plus an abstract
time-of-day, compared lexicographically. -/
structure DateTime where
  days : Int
  tod : Nat
deriving DecidableEq

/-- Model of `datetime` comparison `<`. -/
def dtLt (a b : DateTime) : Bool :=
  if a.days < b.days then true
  else if a.days = b.days then decide (a.tod < b.tod)
  else false

/-- Model of `t - timedelta(days=k)`. -/
def dtSubDays (t : DateTime) (k : Int) : DateTime := ⟨t.days - k, t.tod⟩

/-- The midnight `datetime` produced by `strptime("%Y%m%d")`. -/
def dtOfYmd (y m d : Nat) : DateTime := ⟨daysFromCivilN y m d, 0⟩

/-! ### The canonical-name pattern of the prune pass

Source: `re.compile(rf"^{re.escape(stem)}_(\d{{8}}){re.escape(ext)}$")`,
matched with `.match` against each entry's name.  `^...$` without
`re.MULTILINE` anchors at both ends except that `$` also matches just before
a single final newline. -/

/-- The prune-pass name match, with Python `$` semantics: the name is
`stem` ++ `'_'` ++ eight digits ++ `ext`, possibly followed by one final
newline; returns the 8-digit group. -/
def canonMatch (stem ext name : List Char) : Option (List Char) :=
  if startsWithL stem name then
    match name.drop stem.length with
    | '_' :: r =>
      if (r.take 8).length = 8 && (r.take 8).all isDig &&
          (decide (r.drop 8 = ext) || decide (r.drop 8 = ext ++ ['\n']))
      then some (r.take 8) else none
    | _ => none
  else none

/-- Comparison definition following the spec's words for the prune-pass test:
the name matches `{stem}_{8 digits}{ext}` exactly, anchored, with no extra
characters.  (The source's `$` additionally tolerates one trailing newline;
`canonMatch` models the source.) -/
def canonMatchExact (stem ext name : List Char) : Bool :=
  if startsWithL stem name then
    match name.drop stem.length with
    | '_' :: r => (r.take 8).length = 8 && (r.take 8).all isDig && decide (r.drop 8 = ext)
    | _ => false
  else false

example : canonMatch ['a', 'p', 'p'] ['.', 'l', 'o', 'g'] "app_20260206.log".data =
    some "20260206".data := by decide
example : canonMatch ['a', 'p', 'p'] ['.', 'l', 'o', 'g'] "app_20260206.log\n".data =
    some "20260206".data := by decide
example : canonMatchExact ['a', 'p', 'p'] ['.', 'l', 'o', 'g'] "app_20260206.log\n".data =
    false := by decide
example : canonMatch ['a', 'p', 'p'] ['.', 'l', 'o', 'g'] "app_20260206.logx".data =
    none := by decide
example : strptimeYmd "20260229".data = none := by decide
example : strptimeYmd "20240229".data = some (2024, 2, 29) := by decide
example : strptimeYmd "00001231".data = none := by decide
example : strptimeYmd "20261321".data = none := by decide

/-! ### The file-system model and the retention handler

Files are an association list from normalized paths to content identifiers
(`Nat`); directories are tracked only to model the `log_dir.exists()` guard.
`os.remove` and `os.rename` raise (`Except.error`) on a missing source;
`Path.unlink(missing_ok=True)` never does. -/

structure FS where
  files : List (PPath × Nat)
  dirs : List PPath
deriving DecidableEq

def findContent : List (PPath × Nat) → PPath → Option Nat
  | [], _ => none
  | e :: es, p => if e.1 = p then some e.2 else findContent es p

def eraseKey (l : List (PPath × Nat)) (p : PPath) : List (PPath × Nat) :=
  l.filter (fun e => !decide (e.1 = p))

/-- Model of `os.path.exists` (regular files; directories other than the log
directory are out of the model's scope). -/
def pexists (fs : FS) (p : PPath) : Bool := (findContent fs.files p).isSome

/-- Write a content at a path, replacing any previous entry. -/
def setFile (fs : FS) (p : PPath) (c : Nat) : FS := ⟨(p, c) :: eraseKey fs.files p, fs.dirs⟩

/-- Model of `Path.unlink(missing_ok=True)`: delete if present, no error. -/
def unlink (fs : FS) (p : PPath) : FS := ⟨eraseKey fs.files p, fs.dirs⟩

/-- Model of `os.remove`: `FileNotFoundError` when the path is absent. -/
def osRemove (fs : FS) (p : PPath) : Except Unit FS :=
  if pexists fs p then Except.ok (unlink fs p) else Except.error ()

/-- Model of `os.rename`: fails when the source is absent, atomically
replaces the destination otherwise. -/
def osRename (fs : FS) (src dst : PPath) : Except Unit FS :=
  match findContent fs.files src with
  | some c => Except.ok (setFile (unlink fs src) dst c)
  | none => Except.error ()

/-- The normalized path of a path string. -/
def pathOf (s : String) : PPath := parsePath s.data

/-- One iteration of the handler's rename loop (`src/utils/logger.py:63-70`):
if the input matches the rotation regex, compute the canonical name; if a
file already exists there, delete the input, otherwise rename it. -/
def renameStep (fs : FS) (log_path : String) : Except Unit FS :=
  match findRotAux log_path.data 0 with
  | none => Except.ok fs
  | some _ =>
    let new_path := pathOf (log_namer log_path)
    if pexists fs new_path then osRemove fs (pathOf log_path)
    else osRename fs (pathOf log_path) new_path

/-- The rename loop over the `logs` argument, written as the source's
`for` loop. -/
def renameLoop : List String → FS → Except Unit FS
  | [], fs => Except.ok fs
  | p :: ps, fs =>
    match renameStep fs p with
    | Except.ok fs2 => renameLoop ps fs2
    | Except.error e => Except.error e

/-- The rename pass as a monadic fold (used to state the pass-ordering
decomposition). -/
def renamePass (logs : List String) (fs : FS) : Except Unit FS :=
  logs.foldlM renameStep fs

/-- The configuration captured by the closure `_make_retention_handler`
builds: retention in days, and the stem/suffix/parent of the log file. -/
structure HandlerCfg where
  maxAge : Int
  stem : List Char
  ext : List Char
  logDir : PPath
deriving DecidableEq

/-- Model of `_make_retention_handler`'s construction-time bindings
(`src/utils/logger.py:53-56`). -/
def make_retention_handler (retention : String) (logFile : String) : HandlerCfg :=
  ⟨parse_retention_days retention, stemOf (parsePath logFile.data),
    suffixOf (parsePath logFile.data), parentP (parsePath logFile.data)⟩

/-- The prune-pass deletion test on an entry name: canonical-pattern match,
then `strptime`, then strict comparison with the cutoff
(`src/utils/logger.py:76-81`). -/
def shouldDelete (cfg : HandlerCfg) (now : DateTime) (name : List Char) : Bool :=
  match canonMatch cfg.stem cfg.ext name with
  | none => false
  | some ymd =>
    match strptimeYmd ymd with
    | none => false
    | some (y, m, d) => dtLt (dtOfYmd y m d) (dtSubDays now cfg.maxAge)

/-- Whether a path is a directory entry of `d`. -/
def inDir (d p : PPath) : Bool := !decide (p.parts = []) && decide (parentP p = d)

/-- Whether the prune pass deletes the file at path `p`. -/
def pruneKills (cfg : HandlerCfg) (now : DateTime) (p : PPath) : Bool :=
  inDir cfg.logDir p && shouldDelete cfg now (nameOf p)

/-- The body of the prune pass's `for` loop for one directory entry. -/
def pruneEntry (cfg : HandlerCfg) (now : DateTime) (fs : FS) (p : PPath) : FS :=
  if shouldDelete cfg now (nameOf p) then unlink fs p else fs

/-- Model of `log_dir.exists()`. -/
def dirExists (fs : FS) (d : PPath) : Bool := decide (d ∈ fs.dirs)

/-- Model of `log_dir.iterdir()` (regular files of the model). -/
def iterdir (fs : FS) (d : PPath) : List PPath :=
  (fs.files.map Prod.fst).filter (inDir d)

/-- The prune pass (`src/utils/logger.py:72-83`): guarded by directory
existence, scan the directory and delete expired canonical files. -/
def prunePass (cfg : HandlerCfg) (now : DateTime) (fs : FS) : FS :=
  if dirExists fs cfg.logDir then (iterdir fs cfg.logDir).foldl (pruneEntry cfg now) fs
  else fs

/-- Model of the retention handler (`src/utils/logger.py:58-85`): the rename
loop over the input list, then the prune pass.  `now` models the
`datetime.now()` read at entry. -/
def handler (cfg : HandlerCfg) (now : DateTime) (logs : List String) (fs : FS) :
    Except Unit FS :=
  match renameLoop logs fs with
  | Except.error e => Except.error e
  | Except.ok fs2 => Except.ok (prunePass cfg now fs2)

/-! ### Lemmas about path parsing and printing -/

/-- The invariant of component lists produced by `parsePath`. -/
def ValidParts (ps : List (List Char)) : Prop :=
  ∀ c ∈ ps, c ≠ [] ∧ c ≠ ['.'] ∧ '/' ∉ c

theorem splitSlash_ne_nil (cs : List Char) : splitSlash cs ≠ [] := by
  induction cs with
  | nil => simp [splitSlash]
  | cons c cs ih =>
    unfold splitSlash
    cases h : splitSlash cs with
    | nil => simp
    | cons p ps => dsimp only; split <;> simp

theorem splitSlash_no_slash (cs : List Char) : ∀ c ∈ splitSlash cs, '/' ∉ c := by
  induction cs with
  | nil => simp [splitSlash]
  | cons c cs ih =>
    unfold splitSlash
    cases h : splitSlash cs with
    | nil => simp
    | cons p ps =>
      dsimp only
      have hp : '/' ∉ p := ih p (h ▸ List.mem_cons_self p ps)
      have hps : ∀ q ∈ ps, '/' ∉ q := fun q hq => ih q (h ▸ List.mem_cons_of_mem p hq)
      split
      · next hcs =>
        intro q hq
        rcases List.mem_cons.mp hq with rfl | hq2
        · simp
        · rcases List.mem_cons.mp hq2 with rfl | hq3
          · exact hp
          · exact hps q hq3
      · next hcs =>
        intro q hq
        rcases List.mem_cons.mp hq with rfl | hq2
        · intro hmem
          rcases List.mem_cons.mp hmem with h1 | h2
          · exact hcs h1.symm
          · exact hp h2
        · exact hps q hq2

theorem splitSlash_single {cs : List Char} (h : '/' ∉ cs) : splitSlash cs = [cs] := by
  induction cs with
  | nil => rfl
  | cons c cs ih =>
    have hc : c ≠ '/' := fun hh => h (hh ▸ List.mem_cons_self c cs)
    have hcs : '/' ∉ cs := fun hh => h (List.mem_cons_of_mem c hh)
    unfold splitSlash
    rw [ih hcs]
    simp [hc]

theorem splitSlash_append {xs t : List Char} {h : List Char} {tl : List (List Char)}
    (hx : '/' ∉ xs) (ht : splitSlash t = h :: tl) :
    splitSlash (xs ++ t) = (xs ++ h) :: tl := by
  induction xs with
  | nil => simpa using ht
  | cons c cs ih =>
    have hc : c ≠ '/' := fun hh => hx (hh ▸ List.mem_cons_self c cs)
    have hcs : '/' ∉ cs := fun hh => hx (List.mem_cons_of_mem c hh)
    have ih2 := ih hcs
    show splitSlash (c :: (cs ++ t)) = (c :: (cs ++ h)) :: tl
    unfold splitSlash
    rw [ih2]
    simp [hc]

theorem splitSlash_extend {b e : List Char} (he : '/' ∉ e) :
    ∃ tl h, splitSlash b = tl ++ [h] ∧ splitSlash (b ++ e) = tl ++ [h ++ e] := by
  induction b with
  | nil => exact ⟨[], [], rfl, by simpa using splitSlash_single he⟩
  | cons c cs ih =>
    obtain ⟨tl, h, h1, h2⟩ := ih
    by_cases hc : c = '/'
    · subst hc
      refine ⟨[] :: tl, h, ?_, ?_⟩
      · show splitSlash ('/' :: cs) = [] :: tl ++ [h]
        unfold splitSlash
        cases h3 : splitSlash cs with
        | nil => exact absurd h3 (splitSlash_ne_nil cs)
        | cons p ps => simp [h3 ▸ h1]
      · show splitSlash ('/' :: (cs ++ e)) = [] :: tl ++ [h ++ e]
        unfold splitSlash
        cases h3 : splitSlash (cs ++ e) with
        | nil => exact absurd h3 (splitSlash_ne_nil (cs ++ e))
        | cons p ps => simp [h3 ▸ h2]
    · cases tl with
      | nil =>
        simp only [List.nil_append] at h1 h2
        refine ⟨[], c :: h, ?_, ?_⟩
        · show splitSlash (c :: cs) = [c :: h]
          unfold splitSlash
          rw [h1]
          simp [hc]
        · show splitSlash (c :: (cs ++ e)) = [c :: (h ++ e)]
          unfold splitSlash
          rw [h2]
          simp [hc]
      | cons q tl2 =>
        refine ⟨(c :: q) :: tl2, h, ?_, ?_⟩
        · show splitSlash (c :: cs) = (c :: q) :: tl2 ++ [h]
          unfold splitSlash
          rw [h1]
          simp [hc]
        · show splitSlash (c :: (cs ++ e)) = (c :: q) :: tl2 ++ [h ++ e]
          unfold splitSlash
          rw [h2]
          simp [hc]

theorem splitSlash_cons_slash (v : List Char) : splitSlash ('/' :: v) = [] :: splitSlash v := by
  cases h : splitSlash v with
  | nil => exact absurd h (splitSlash_ne_nil v)
  | cons p ps =>
    conv_lhs => rw [splitSlash]
    rw [h]
    simp

theorem splitSlash_interSlash {ps : List (List Char)} (hne : ps ≠ [])
    (h : ∀ c ∈ ps, '/' ∉ c) : splitSlash (interSlash ps) = ps := by
  induction ps with
  | nil => exact absurd rfl hne
  | cons p rest ih =>
    cases rest with
    | nil => exact splitSlash_single (h p (List.mem_cons_self p []))
    | cons q rest2 =>
      have hp : '/' ∉ p := h p (List.mem_cons_self p (q :: rest2))
      have hrest : ∀ c ∈ q :: rest2, '/' ∉ c := fun c hc => h c (List.mem_cons_of_mem p hc)
      have ih2 := ih (by simp) hrest
      show splitSlash (p ++ '/' :: interSlash (q :: rest2)) = p :: q :: rest2
      have ht : splitSlash ('/' :: interSlash (q :: rest2)) = [] :: q :: rest2 := by
        rw [splitSlash_cons_slash, ih2]
      rw [splitSlash_append hp ht]
      simp

theorem rootOf_cons_ne {c : Char} {cs : List Char} (h : c ≠ '/') :
    rootOf (c :: cs) = Root.rel := by
  have h2 : ('/' : Char) ≠ c := fun hh => h hh.symm
  simp [rootOf, startsWithL, h2]

theorem rootOf_slash_cons_ne {a : Char} {v : List Char} (h : a ≠ '/') :
    rootOf ('/' :: a :: v) = Root.abs := by
  have h2 : ('/' : Char) ≠ a := fun hh => h hh.symm
  simp [rootOf, startsWithL, h2]

theorem rootOf_dblslash_cons_ne {a : Char} {v : List Char} (h : a ≠ '/') :
    rootOf ('/' :: '/' :: a :: v) = Root.dblabs := by
  have h2 : ('/' : Char) ≠ a := fun hh => h hh.symm
  simp [rootOf, startsWithL, h2]

theorem interSlash_cons (p : List Char) (rest : List (List Char)) :
    ∃ w, interSlash (p :: rest) = p ++ w := by
  cases rest with
  | nil => exact ⟨[], by simp [interSlash]⟩
  | cons q rest2 => exact ⟨'/' :: interSlash (q :: rest2), rfl⟩

theorem validComp_eq_true {c : List Char} (h1 : c ≠ []) (h2 : c ≠ ['.']) :
    validComp c = true := by
  simp [validComp, h1, h2]

theorem parse_strP {r : Root} {ps : List (List Char)} (h : ValidParts ps) :
    parsePath (strP ⟨r, ps⟩) = ⟨r, ps⟩ := by
  cases ps with
  | nil =>
    cases r with
    | rel => decide
    | abs => decide
    | dblabs => decide
  | cons p rest =>
    have hp := h p (List.mem_cons_self p rest)
    obtain ⟨a, p2, rfl⟩ : ∃ a p2, p = a :: p2 := by
      cases p with
      | nil => exact absurd rfl hp.1
      | cons a p2 => exact ⟨a, p2, rfl⟩
    have hs : ∀ c ∈ (a :: p2) :: rest, '/' ∉ c := fun c hc => (h c hc).2.2
    have ha : a ≠ '/' := by
      intro hh
      exact (h _ (List.mem_cons_self _ rest)).2.2 (hh ▸ List.mem_cons_self a p2)
    obtain ⟨w, hw⟩ := interSlash_cons (a :: p2) rest
    rw [List.cons_append] at hw
    have hsplit : splitSlash (interSlash ((a :: p2) :: rest)) = (a :: p2) :: rest :=
      splitSlash_interSlash (by simp) hs
    have hfilter : ((a :: p2) :: rest).filter validComp = (a :: p2) :: rest :=
      List.filter_eq_self.mpr (fun c hc => validComp_eq_true (h c hc).1 (h c hc).2.1)
    cases r with
    | rel =>
      show parsePath (interSlash ((a :: p2) :: rest)) = _
      have hroot : rootOf (interSlash ((a :: p2) :: rest)) = Root.rel := by
        rw [hw]; exact rootOf_cons_ne ha
      have hparts : (splitSlash (interSlash ((a :: p2) :: rest))).filter validComp =
          (a :: p2) :: rest := by rw [hsplit]; exact hfilter
      unfold parsePath
      rw [hroot, hparts]
    | abs =>
      show parsePath ('/' :: interSlash ((a :: p2) :: rest)) = _
      have hroot : rootOf ('/' :: interSlash ((a :: p2) :: rest)) = Root.abs := by
        rw [hw]; exact rootOf_slash_cons_ne ha
      have hparts : (splitSlash ('/' :: interSlash ((a :: p2) :: rest))).filter validComp =
          (a :: p2) :: rest := by
        rw [splitSlash_cons_slash, hsplit]
        exact hfilter
      unfold parsePath
      rw [hroot, hparts]
    | dblabs =>
      show parsePath ('/' :: '/' :: interSlash ((a :: p2) :: rest)) = _
      have hroot : rootOf ('/' :: '/' :: interSlash ((a :: p2) :: rest)) = Root.dblabs := by
        rw [hw]; exact rootOf_dblslash_cons_ne ha
      have hparts : (splitSlash ('/' :: '/' :: interSlash ((a :: p2) :: rest))).filter validComp
          = (a :: p2) :: rest := by
        rw [splitSlash_cons_slash, splitSlash_cons_slash, hsplit]
        exact hfilter
      unfold parsePath
      rw [hroot, hparts]

theorem parsePath_valid (cs : List Char) : ValidParts (parsePath cs).parts := by
  intro c hc
  have h1 : c ∈ (splitSlash cs).filter validComp := hc
  have h2 := List.mem_filter.mp h1
  have h3 : validComp c = true := h2.2
  have h4 : c ≠ [] ∧ c ≠ ['.'] := by
    constructor <;> intro hh <;> subst hh <;> simp [validComp] at h3
  exact ⟨h4.1, h4.2, splitSlash_no_slash cs c h2.1⟩

theorem ValidParts.dropLast {ps : List (List Char)} (h : ValidParts ps) :
    ValidParts ps.dropLast :=
  fun c hc => h c ((List.dropLast_sublist ps).subset hc)

theorem ValidParts.append {ps qs : List (List Char)} (h1 : ValidParts ps)
    (h2 : ValidParts qs) : ValidParts (ps ++ qs) := by
  intro c hc
  rcases List.mem_append.mp hc with hc2 | hc2
  · exact h1 c hc2
  · exact h2 c hc2

theorem stem_append_suffix (p : PPath) : stemOf p ++ suffixOf p = nameOf p := by
  unfold stemOf suffixOf
  cases h : rfindDot (nameOf p) with
  | none => simp
  | some i =>
    by_cases hc : 0 < i && i + 1 < (nameOf p).length
    · simp [hc, List.take_append_drop]
    · simp [hc]

theorem slash_not_mem_stemOf {p : PPath} (h : '/' ∉ nameOf p) : '/' ∉ stemOf p := by
  unfold stemOf
  cases hh : rfindDot (nameOf p) with
  | none => exact h
  | some i =>
    by_cases hc : 0 < i && i + 1 < (nameOf p).length
    · simp only [hc, if_true]
      intro hm
      exact h (List.take_subset i (nameOf p) hm)
    · simpa [hc] using h

theorem slash_not_mem_suffixOf {p : PPath} (h : '/' ∉ nameOf p) : '/' ∉ suffixOf p := by
  unfold suffixOf
  cases hh : rfindDot (nameOf p) with
  | none => simp
  | some i =>
    by_cases hc : 0 < i && i + 1 < (nameOf p).length
    · simp only [hc, if_true]
      intro hm
      exact h (List.drop_subset i (nameOf p) hm)
    · simp [hc]

theorem mem_of_getLastQ {α : Type} {l : List α} {a : α} (h : l.getLast? = some a) : a ∈ l := by
  induction l with
  | nil => simp at h
  | cons x xs ih =>
    cases xs with
    | nil => simp_all
    | cons y ys =>
      rw [List.getLast?_cons_cons] at h
      exact List.mem_cons_of_mem x (ih h)

theorem slash_not_mem_nameOf {p : PPath} (h : ValidParts p.parts) : '/' ∉ nameOf p := by
  unfold nameOf
  cases hh : p.parts.getLast? with
  | none => simp
  | some l =>
    have : l ∈ p.parts := mem_of_getLastQ hh
    simpa using (h l this).2.2

theorem isDig_ne_slash {c : Char} (h : isDig c = true) : c ≠ '/' := by
  intro hh
  subst hh
  simp [isDig] at h

/-- Character-class fact for a rotation suffix: everything after the leading
dot is a digit, a dash, an underscore, or the final newline. -/
theorem rotTail_shape {t y m d : List Char} (h : rotTail t = some (y, m, d)) :
    ∃ ts, t = '.' :: ts ∧ y.length = 4 ∧ m.length = 2 ∧ d.length = 2 ∧
      (∀ c ∈ y ++ m ++ d, isDig c = true) ∧ '/' ∉ ts ∧ 21 ≤ ts.length := by
  unfold rotTail at h
  split at h
  case _ y1 y2 y3 y4 m1 m2 d1 d2 hr1 hr2 n1 n2 s1 s2 rest =>
    split at h
    case isFalse => exact absurd h (by simp)
    case isTrue hc =>
      simp only [Option.some.injEq, Prod.mk.injEq] at h
      obtain ⟨rfl, rfl, rfl⟩ := h
      simp only [Bool.and_eq_true] at hc
      obtain ⟨⟨⟨⟨⟨⟨⟨⟨⟨⟨⟨⟨⟨⟨hy1, hy2⟩, hy3⟩, hy4⟩, hm1⟩, hm2⟩, hd1⟩, hd2⟩, hh1⟩, hh2⟩,
        hn1⟩, hn2⟩, hs1⟩, hs2⟩, htn⟩ := hc
      have hrest_ne : rest ≠ [] := by
        intro hh
        subst hh
        simp [tailNumOk] at htn
      have htn2 := htn
      simp only [tailNumOk, Bool.and_eq_true, Bool.or_eq_true, decide_eq_true_eq] at htn2
      have hrest_chars : ∀ c ∈ rest, isDig c = true ∨ c = '\n' := by
        intro c hcm
        rw [← List.takeWhile_append_dropWhile isDig rest] at hcm
        rcases List.mem_append.mp hcm with hcm2 | hcm2
        · exact Or.inl (List.mem_takeWhile_imp hcm2)
        · rcases htn2.2 with hdrop | hdrop
          · rw [hdrop] at hcm2
            simp at hcm2
          · rw [hdrop] at hcm2
            simp at hcm2
            exact Or.inr hcm2
      refine ⟨_, rfl, rfl, rfl, rfl, ?_, ?_, ?_⟩
      · intro c hcm
        simp only [List.mem_append, List.mem_cons, List.not_mem_nil, or_false] at hcm
        rcases hcm with ((rfl | rfl | rfl | rfl) | (rfl | rfl)) | (rfl | rfl)
        · exact hy1
        · exact hy2
        · exact hy3
        · exact hy4
        · exact hm1
        · exact hm2
        · exact hd1
        · exact hd2
      · intro hmem
        simp only [List.mem_cons] at hmem
        rcases hmem with h0 | h0 | h0 | h0 | h0 | h0 | h0 | h0 | h0 | h0 | h0 | h0 | h0 | h0
          | h0 | h0 | h0 | h0 | h0 | h0
        · exact isDig_ne_slash hy1 h0.symm
        · exact isDig_ne_slash hy2 h0.symm
        · exact isDig_ne_slash hy3 h0.symm
        · exact isDig_ne_slash hy4 h0.symm
        · exact absurd h0 (by decide)
        · exact isDig_ne_slash hm1 h0.symm
        · exact isDig_ne_slash hm2 h0.symm
        · exact absurd h0 (by decide)
        · exact isDig_ne_slash hd1 h0.symm
        · exact isDig_ne_slash hd2 h0.symm
        · exact absurd h0 (by decide)
        · exact isDig_ne_slash hh1 h0.symm
        · exact isDig_ne_slash hh2 h0.symm
        · exact absurd h0 (by decide)
        · exact isDig_ne_slash hn1 h0.symm
        · exact isDig_ne_slash hn2 h0.symm
        · exact absurd h0 (by decide)
        · exact isDig_ne_slash hs1 h0.symm
        · exact isDig_ne_slash hs2 h0.symm
        · rcases h0 with h0 | hmr
          · exact absurd h0 (by decide)
          · rcases hrest_chars '/' hmr with hdd | hdd
            · exact isDig_ne_slash hdd rfl
            · exact absurd hdd (by decide)
      · have : 1 ≤ rest.length := by
          cases rest with
          | nil => exact absurd rfl hrest_ne
          | cons a b => simp
        simp only [List.length_cons]
        omega
  case _ => exact absurd h (by simp)

theorem findRotAux_spec {cs : List Char} {k i : Nat} {g : List Char × List Char × List Char}
    (h : findRotAux cs k = some (i, g)) :
    k ≤ i ∧ rotTail (cs.drop (i - k)) = some g := by
  induction cs generalizing k with
  | nil => simp [findRotAux] at h
  | cons c cs ih =>
    unfold findRotAux at h
    cases hr : rotTail (c :: cs) with
    | some g2 =>
      rw [hr] at h
      simp only [Option.some.injEq, Prod.mk.injEq] at h
      obtain ⟨rfl, rfl⟩ := h
      simpa using hr
    | none =>
      rw [hr] at h
      obtain ⟨h1, h2⟩ := ih h
      refine ⟨by omega, ?_⟩
      have : (c :: cs).drop (i - k) = cs.drop (i - (k + 1)) := by
        have hik : k + 1 ≤ i := h1
        have : i - k = (i - (k + 1)) + 1 := by omega
        rw [this]
        simp
      rw [this]
      exact h2

/-- Structure of `_log_namer` on a matching input: the parsed result is the
parent of the base (the part before the matched suffix) with the single
component `{stem}_{YYYY}{MM}{DD}{ext}` appended. -/
theorem logNamer_structure {cs : List Char} {i : Nat} {y m d : List Char}
    (h : findRotAux cs 0 = some (i, y, m, d)) :
    parsePath (logNamerL cs) =
      ⟨(parsePath (cs.take i)).root,
        (parsePath (cs.take i)).parts.dropLast ++
          [stemOf (parsePath (cs.take i)) ++
            '_' :: (y ++ m ++ d ++ suffixOf (parsePath (cs.take i)))]⟩ := by
  obtain ⟨hle, hrot⟩ := findRotAux_spec h
  simp only [Nat.sub_zero] at hrot
  obtain ⟨ts, hts, hy, hm, hd, hdig, hsl, hlen⟩ := rotTail_shape hrot
  set pb := parsePath (cs.take i) with hpb
  have hvalid : ValidParts pb.parts := parsePath_valid _
  have hname : '/' ∉ nameOf pb := slash_not_mem_nameOf hvalid
  have hstem : '/' ∉ stemOf pb := slash_not_mem_stemOf hname
  have hsuf : '/' ∉ suffixOf pb := slash_not_mem_suffixOf hname
  set comp := stemOf pb ++ '_' :: (y ++ m ++ d ++ suffixOf pb) with hcomp
  have hcompslash : '/' ∉ comp := by
    intro hmem
    rcases List.mem_append.mp hmem with h1 | h1
    · exact hstem h1
    · rcases List.mem_cons.mp h1 with h2 | h2
      · exact absurd h2 (by decide)
      · rcases List.mem_append.mp h2 with h3 | h3
        · exact absurd (hdig '/' h3) (by decide)
        · exact hsuf h3
  have hus : '_' ∈ comp := List.mem_append_right _ (List.mem_cons_self _ _)
  have hcompne : comp ≠ [] := fun hh => by simp [hh] at hus
  have hcompdot : comp ≠ ['.'] := fun hh => by rw [hh] at hus; simp at hus
  have hcompvalid : ValidParts [comp] := by
    intro c hc
    rcases List.mem_cons.mp hc with rfl | h0
    · exact ⟨hcompne, hcompdot, hcompslash⟩
    · simp at h0
  have hparse_comp : parsePath comp = ⟨Root.rel, [comp]⟩ := by
    have h1 : splitSlash comp = [comp] := splitSlash_single hcompslash
    have hroot : rootOf comp = Root.rel := by
      cases hcm : comp with
      | nil => exact absurd hcm hcompne
      | cons a as =>
        have ha : a ≠ '/' := by
          intro hh
          apply hcompslash
          rw [hcm, hh]
          exact List.mem_cons_self _ _
        exact rootOf_cons_ne ha
    unfold parsePath
    rw [hroot, h1]
    simp [validComp_eq_true hcompne hcompdot]
  have hparent : parsePath (strP (parentP pb)) = parentP pb :=
    parse_strP hvalid.dropLast
  have hL : logNamerL cs = strP (joinP (parsePath (strP (parentP pb))) comp) := by
    unfold logNamerL
    rw [h]
  have hjoin : joinP (parentP pb) comp = ⟨pb.root, pb.parts.dropLast ++ [comp]⟩ := by
    unfold joinP
    rw [hparse_comp]
    rfl
  rw [hL, hparent, hjoin]
  exact parse_strP (hvalid.dropLast.append hcompvalid)

/-- On a matching input, `_log_namer` never maps a raw path to itself: the
canonical path is a genuinely different file-system path. -/
theorem canon_ne {cs : List Char} {i : Nat} {y m d : List Char}
    (h : findRotAux cs 0 = some (i, y, m, d)) :
    parsePath (logNamerL cs) ≠ parsePath cs := by
  obtain ⟨hle, hrot⟩ := findRotAux_spec h
  simp only [Nat.sub_zero] at hrot
  obtain ⟨ts, hts, hy, hm, hd, hdig, hsl, hlen⟩ := rotTail_shape hrot
  have hcs : cs = cs.take i ++ '.' :: ts := by
    conv_lhs => rw [← List.take_append_drop i cs]
    rw [hts]
  set b := cs.take i with hb
  set pb := parsePath b with hpb
  set comp := stemOf pb ++ '_' :: (y ++ m ++ d ++ suffixOf pb) with hcomp
  have he_slash : '/' ∉ '.' :: ts := by
    intro hm2
    rcases List.mem_cons.mp hm2 with h0 | h0
    · exact absurd h0 (by decide)
    · exact hsl h0
  obtain ⟨tl, h0, hsb, hsbe⟩ := @splitSlash_extend b ('.' :: ts) he_slash
  have hvE : validComp (h0 ++ '.' :: ts) = true := by
    apply validComp_eq_true
    · simp
    · intro hh
      have := congrArg List.length hh
      simp [List.length_append] at this
      omega
  have hPparts : (parsePath cs).parts = tl.filter validComp ++ [h0 ++ '.' :: ts] := by
    show (splitSlash cs).filter validComp = _
    conv_lhs => rw [hcs]
    rw [hsbe, List.filter_append]
    simp [hvE]
  have hpbparts : pb.parts =
      tl.filter validComp ++ (if validComp h0 then [h0] else []) := by
    show (splitSlash b).filter validComp = _
    rw [hsb, List.filter_append]
    by_cases hv : validComp h0
    · simp [hv]
    · simp [hv]
  have hR : (parsePath (logNamerL cs)).parts = pb.parts.dropLast ++ [comp] := by
    rw [logNamer_structure h]
  intro hEq
  have hparts : pb.parts.dropLast ++ [comp] =
      tl.filter validComp ++ [h0 ++ '.' :: ts] := by
    rw [← hR, hEq, hPparts]
  have hcl : comp.length = (nameOf pb).length + 9 := by
    have h1 := congrArg List.length (stem_append_suffix pb)
    simp only [List.length_append] at h1
    simp only [hcomp, List.length_append, List.length_cons, hy, hm, hd]
    omega
  by_cases hv : validComp h0 = true
  · have hpb2 : pb.parts = tl.filter validComp ++ [h0] := by
      rw [hpbparts, hv]
      simp
    have hnm : nameOf pb = h0 := by
      unfold nameOf
      rw [hpb2, List.getLast?_concat]
      rfl
    have hdrop : pb.parts.dropLast = tl.filter validComp := by
      rw [hpb2]
      exact List.dropLast_concat
    rw [hdrop] at hparts
    have hsing : comp = h0 ++ '.' :: ts := by
      have := List.append_cancel_left hparts
      simpa using this
    have := congrArg List.length hsing
    rw [hcl, hnm] at this
    simp [List.length_append] at this
    omega
  · have hpb2 : pb.parts = tl.filter validComp := by
      rw [hpbparts]
      simp [hv]
    cases hF : tl.filter validComp with
    | nil =>
      have hname0 : nameOf pb = [] := by
        unfold nameOf
        rw [hpb2, hF]
        rfl
      rw [hpb2, hF] at hparts
      simp only [List.dropLast_nil, List.nil_append] at hparts
      have hsing : comp = h0 ++ '.' :: ts := by simpa using hparts
      have := congrArg List.length hsing
      rw [hcl, hname0] at this
      simp [List.length_append] at this
      omega
    | cons q F2 =>
      have := congrArg List.length hparts
      rw [hpb2, hF] at this
      simp [List.length_append] at this

/-- A name-level raw-rotation match (the rename regex applied to a file
name). -/
def nameRaw (n : List Char) : Bool := (findRotAux n 0).isSome

theorem findRotAux_append_isSome {t : List Char} {g : List Char × List Char × List Char}
    (x : List Char) (k : Nat) (h : rotTail t = some g) :
    (findRotAux (x ++ t) k).isSome = true := by
  induction x generalizing k with
  | nil =>
    cases t with
    | nil => simp [rotTail] at h
    | cons c cs =>
      simp only [List.nil_append]
      unfold findRotAux
      rw [h]
      rfl
  | cons c x2 ih =>
    show (findRotAux (c :: (x2 ++ t)) k).isSome = true
    unfold findRotAux
    cases hr : rotTail (c :: (x2 ++ t)) with
    | some g2 => rfl
    | none => exact ih (k + 1)

/-- A raw path string that matches the rotation regex has a final path
component that also matches it (the matched span contains no slash). -/
theorem rawMatches_nameRaw {s : String} (h : rawMatches s = true) :
    nameRaw (nameOf (parsePath s.data)) = true := by
  unfold rawMatches at h
  cases hf : findRotAux s.data 0 with
  | none => rw [hf] at h; simp at h
  | some ig =>
    obtain ⟨i, g⟩ := ig
    obtain ⟨hle, hrot⟩ := findRotAux_spec hf
    simp only [Nat.sub_zero] at hrot
    obtain ⟨y, m, d⟩ := g
    obtain ⟨ts, hts, hy, hm, hd, hdig, hsl, hlen⟩ := rotTail_shape hrot
    have hcs : s.data = s.data.take i ++ '.' :: ts := by
      conv_lhs => rw [← List.take_append_drop i s.data]
      rw [hts]
    have he_slash : '/' ∉ '.' :: ts := by
      intro hm2
      rcases List.mem_cons.mp hm2 with h0 | h0
      · exact absurd h0 (by decide)
      · exact hsl h0
    obtain ⟨tl, h0, hsb, hsbe⟩ := @splitSlash_extend (s.data.take i) ('.' :: ts) he_slash
    have hvE : validComp (h0 ++ '.' :: ts) = true := by
      apply validComp_eq_true
      · simp
      · intro hh
        have := congrArg List.length hh
        simp [List.length_append] at this
        omega
    have hPparts : (parsePath s.data).parts = tl.filter validComp ++ [h0 ++ '.' :: ts] := by
      show (splitSlash s.data).filter validComp = _
      conv_lhs => rw [hcs]
      rw [hsbe, List.filter_append]
      simp [hvE]
    have hname : nameOf (parsePath s.data) = h0 ++ '.' :: ts := by
      unfold nameOf
      rw [hPparts, List.getLast?_concat]
      rfl
    rw [hname]
    unfold nameRaw
    rw [hts] at hrot
    exact findRotAux_append_isSome h0 0 hrot

/-! ### Lemmas about the file-system primitives and the prune pass -/

theorem findContent_eraseKey (l : List (PPath × Nat)) (p q : PPath) :
    findContent (eraseKey l p) q = if q = p then none else findContent l q := by
  induction l with
  | nil => simp [eraseKey, findContent]
  | cons e es ih =>
    unfold eraseKey at ih ⊢
    by_cases hep : e.1 = p
    · rw [show List.filter (fun e => !decide (e.1 = p)) (e :: es) =
        List.filter (fun e => !decide (e.1 = p)) es from by simp [List.filter, hep]]
      rw [ih]
      by_cases hqp : q = p
      · simp [hqp]
      · have hne : ¬ e.1 = q := fun hh => hqp (hh.symm.trans hep)
        simp [hqp, findContent, hne]
    · rw [show List.filter (fun e => !decide (e.1 = p)) (e :: es) =
        e :: List.filter (fun e => !decide (e.1 = p)) es from by simp [List.filter, hep]]
      by_cases heq : e.1 = q
      · have hqp : ¬ q = p := fun hh => hep (heq.trans hh)
        simp [findContent, heq, hqp]
      · have h1 : findContent (e :: List.filter (fun e => !decide (e.1 = p)) es) q =
            findContent (List.filter (fun e => !decide (e.1 = p)) es) q := by
          simp [findContent, heq]
        rw [h1, ih]
        by_cases hqp : q = p
        · simp [hqp]
        · simp [hqp, findContent, heq]

theorem findContent_filter (l : List (PPath × Nat)) (kills : PPath → Bool) (q : PPath) :
    findContent (l.filter (fun e => !kills e.1)) q =
      if kills q = true then none else findContent l q := by
  induction l with
  | nil => simp [findContent]
  | cons e es ih =>
    by_cases heq : e.1 = q
    · subst heq
      by_cases hk : kills e.1 = true
      · simp [List.filter, hk, ih]
      · have hk2 : kills e.1 = false := by simpa using hk
        simp [List.filter, hk2, findContent]
    · by_cases hk : kills e.1 = true
      · simp [List.filter, hk, ih, findContent, heq]
      · have hk2 : kills e.1 = false := by simpa using hk
        simp [List.filter, hk2, findContent, heq, ih]

theorem pruneFold_filter (cfg : HandlerCfg) (now : DateTime) (l : List PPath) (fs : FS) :
    l.foldl (pruneEntry cfg now) fs =
      ⟨fs.files.filter
        (fun e => !(decide (e.1 ∈ l) && shouldDelete cfg now (nameOf e.1))), fs.dirs⟩ := by
  induction l generalizing fs with
  | nil =>
    cases fs with
    | mk files dirs =>
      simp only [List.foldl_nil]
      congr 1
      exact (List.filter_eq_self.mpr (fun a _ => by simp)).symm
  | cons p l ih =>
    simp only [List.foldl_cons]
    rw [ih]
    unfold pruneEntry unlink
    by_cases hsd : shouldDelete cfg now (nameOf p) = true
    · rw [if_pos hsd]
      congr 1
      unfold eraseKey
      rw [List.filter_filter]
      apply List.filter_congr
      intro e hmem
      by_cases hep : e.1 = p
      · simp [hep, hsd, List.mem_cons]
      · simp [hep, List.mem_cons]
    · rw [if_neg hsd]
      congr 1
      apply List.filter_congr
      intro e hmem
      by_cases hep : e.1 = p
      · have hsd3 : shouldDelete cfg now (nameOf p) = false := by simpa using hsd
        simp [hep, hsd3, List.mem_cons]
      · simp [hep, List.mem_cons]

/-- The prune pass deletes exactly the directory entries that are matched,
dated, and expired; everything else, and the directory list, is unchanged. -/
theorem prunePass_filter (cfg : HandlerCfg) (now : DateTime) (fs : FS) :
    prunePass cfg now fs =
      if dirExists fs cfg.logDir = true then
        ⟨fs.files.filter (fun e => !pruneKills cfg now e.1), fs.dirs⟩
      else fs := by
  unfold prunePass
  by_cases hd : dirExists fs cfg.logDir = true
  · rw [if_pos hd, if_pos hd, pruneFold_filter]
    congr 1
    apply List.filter_congr
    intro e hmem
    have hmm : decide (e.1 ∈ iterdir fs cfg.logDir) = inDir cfg.logDir e.1 := by
      by_cases hin : inDir cfg.logDir e.1 = true
      · have hmem2 : e.1 ∈ iterdir fs cfg.logDir := by
          unfold iterdir
          exact List.mem_filter.mpr ⟨List.mem_map_of_mem Prod.fst hmem, hin⟩
        simp [hmem2, hin]
      · have hmem2 : e.1 ∉ iterdir fs cfg.logDir := by
          intro hmem3
          exact hin (List.mem_filter.mp hmem3).2
        have hin2 : inDir cfg.logDir e.1 = false := by simpa using hin
        simp [hmem2, hin2]
    rw [hmm]
    rfl
  · rw [if_neg hd, if_neg hd]

theorem prunePass_idem (cfg : HandlerCfg) (now : DateTime) (fs : FS) :
    prunePass cfg now (prunePass cfg now fs) = prunePass cfg now fs := by
  by_cases hd : dirExists fs cfg.logDir = true
  · have h1 : prunePass cfg now fs =
        ⟨fs.files.filter (fun e => !pruneKills cfg now e.1), fs.dirs⟩ := by
      rw [prunePass_filter, if_pos hd]
    rw [h1, prunePass_filter]
    have hd2 : dirExists
        ⟨fs.files.filter (fun e => !pruneKills cfg now e.1), fs.dirs⟩ cfg.logDir = true := hd
    rw [if_pos hd2]
    congr 1
    rw [List.filter_filter]
    apply List.filter_congr
    intro e hmem
    cases pruneKills cfg now e.1 <;> simp
  · have h1 : prunePass cfg now fs = fs := by rw [prunePass_filter, if_neg hd]
    rw [h1, h1]

/-- The handler is literally the rename pass followed by the prune pass on
the post-rename state. -/
theorem handler_decomp (cfg : HandlerCfg) (now : DateTime) (logs : List String) (fs : FS) :
    handler cfg now logs fs =
      (renamePass logs fs).bind (fun fs1 => Except.ok (prunePass cfg now fs1)) := by
  induction logs generalizing fs with
  | nil => rfl
  | cons p ps ih =>
    cases h : renameStep fs p with
    | ok fs2 =>
      have hrl : renameLoop (p :: ps) fs = renameLoop ps fs2 := by
        show (match renameStep fs p with
          | Except.ok fs3 => renameLoop ps fs3
          | Except.error e => Except.error e) = renameLoop ps fs2
        rw [h]
      have h1 : handler cfg now (p :: ps) fs = handler cfg now ps fs2 := by
        show (match renameLoop (p :: ps) fs with
          | Except.error e => Except.error e
          | Except.ok fs3 => Except.ok (prunePass cfg now fs3)) =
          (match renameLoop ps fs2 with
          | Except.error e => Except.error e
          | Except.ok fs3 => Except.ok (prunePass cfg now fs3))
        rw [hrl]
      have h2 : renamePass (p :: ps) fs = renamePass ps fs2 := by
        unfold renamePass
        rw [List.foldlM_cons, h]
        rfl
      rw [h1, h2]
      exact ih fs2
    | error e =>
      have hrl : renameLoop (p :: ps) fs = Except.error e := by
        show (match renameStep fs p with
          | Except.ok fs3 => renameLoop ps fs3
          | Except.error e => Except.error e) = Except.error e
        rw [h]
      have h1 : handler cfg now (p :: ps) fs = Except.error e := by
        show (match renameLoop (p :: ps) fs with
          | Except.error e => Except.error e
          | Except.ok fs3 => Except.ok (prunePass cfg now fs3)) = Except.error e
        rw [hrl]
      have h2 : renamePass (p :: ps) fs = Except.error e := by
        unfold renamePass
        rw [List.foldlM_cons, h]
        rfl
      rw [h1, h2]
      rfl

theorem shouldDelete_iff (cfg : HandlerCfg) (now : DateTime) (name : List Char) :
    shouldDelete cfg now name = true ↔
      ∃ ymd y m d, canonMatch cfg.stem cfg.ext name = some ymd ∧
        strptimeYmd ymd = some (y, m, d) ∧
        dtLt (dtOfYmd y m d) (dtSubDays now cfg.maxAge) = true := by
  constructor
  · intro h
    unfold shouldDelete at h
    cases hcm : canonMatch cfg.stem cfg.ext name with
    | none => rw [hcm] at h; simp at h
    | some ymd =>
      rw [hcm] at h
      simp only [] at h
      cases hsp : strptimeYmd ymd with
      | none => rw [hsp] at h; simp at h
      | some t =>
        obtain ⟨y2, m2, d2⟩ := t
        rw [hsp] at h
        exact ⟨ymd, y2, m2, d2, rfl, hsp, h⟩
  · rintro ⟨ymd, y2, m2, d2, hcm, hsp, hlt⟩
    unfold shouldDelete
    rw [hcm]
    show (match strptimeYmd ymd with
      | none => false
      | some (y, m, d) => dtLt (dtOfYmd y m d) (dtSubDays now cfg.maxAge)) = true
    rw [hsp]
    exact hlt

theorem shouldDelete_none {cfg : HandlerCfg} {now : DateTime} {name : List Char}
    (h : canonMatch cfg.stem cfg.ext name = none) :
    shouldDelete cfg now name = false := by
  unfold shouldDelete
  rw [h]

/-- The rename-loop body on a matching input, as an `if` on the
collision check. -/
theorem renameStep_eq_of_match {g : FS} {q : String} {ig : Nat × List Char × List Char × List Char}
    (hq : findRotAux q.data 0 = some ig) :
    renameStep g q =
      if pexists g (pathOf (log_namer q)) then osRemove g (pathOf q)
      else osRename g (pathOf q) (pathOf (log_namer q)) := by
  unfold renameStep
  rw [hq]

/-- The rename-loop body skips an input that does not match the rotation
regex. -/
theorem renameStep_eq_of_no_match {g : FS} {q : String} (hq : rawMatches q = false) :
    renameStep g q = Except.ok g := by
  unfold renameStep
  unfold rawMatches at hq
  cases hf : findRotAux q.data 0 with
  | none => rfl
  | some gg => rw [hf] at hq; simp at hq

/-- A successful rename step never touches a file whose path differs from the
input path: it is either skipped, deleted at the input path, or renamed from
the input path onto a previously nonexistent target. -/
theorem renameStep_frame (g g3 : FS) (q : String) (p : PPath) (c : Nat)
    (hstep : renameStep g q = Except.ok g3)
    (hmem : findContent g.files p = some c)
    (hne : pathOf q ≠ p) :
    findContent g3.files p = some c := by
  cases hq : findRotAux q.data 0 with
  | none =>
    rw [renameStep_eq_of_no_match (by unfold rawMatches; rw [hq]; rfl)] at hstep
    injection hstep with hgg
    rw [← hgg]
    exact hmem
  | some ig =>
    rw [renameStep_eq_of_match hq] at hstep
    by_cases hex : pexists g (pathOf (log_namer q)) = true
    · rw [if_pos hex] at hstep
      unfold osRemove at hstep
      by_cases hex2 : pexists g (pathOf q) = true
      · rw [if_pos hex2] at hstep
        injection hstep with hgg
        rw [← hgg]
        show findContent (eraseKey g.files (pathOf q)) p = some c
        rw [findContent_eraseKey, if_neg (fun hh => hne hh.symm)]
        exact hmem
      · rw [if_neg hex2] at hstep
        exact absurd hstep (by simp)
    · rw [if_neg hex] at hstep
      unfold osRename at hstep
      cases hfc : findContent g.files (pathOf q) with
      | none => rw [hfc] at hstep; exact absurd hstep (by simp)
      | some cq =>
        rw [hfc] at hstep
        injection hstep with hgg
        rw [← hgg]
        have hcq : pathOf (log_namer q) ≠ p := by
          intro hh
          unfold pexists at hex
          rw [hh, hmem] at hex
          exact hex rfl
        show findContent ((pathOf (log_namer q), cq) ::
          eraseKey (eraseKey g.files (pathOf q)) (pathOf (log_namer q))) p = some c
        have h1 : findContent ((pathOf (log_namer q), cq) ::
            eraseKey (eraseKey g.files (pathOf q)) (pathOf (log_namer q))) p =
            findContent (eraseKey (eraseKey g.files (pathOf q)) (pathOf (log_namer q))) p := by
          simp [findContent, hcq]
        rw [h1, findContent_eraseKey, if_neg (fun hh => hcq hh.symm),
          findContent_eraseKey, if_neg (fun hh => hne hh.symm)]
        exact hmem

/-- Frame property of the whole rename loop for a file whose name does not
match the rotation regex. -/
theorem renameLoop_frame : ∀ (ls : List String) (g g2 : FS) (p : PPath) (c : Nat),
    renameLoop ls g = Except.ok g2 → findContent g.files p = some c →
    nameRaw (nameOf p) = false → findContent g2.files p = some c
  | [], g, g2, p, c, hok, hmem, _ => by
    injection hok with hgg
    rw [← hgg]
    exact hmem
  | q :: qs, g, g2, p, c, hok, hmem, hraw => by
    cases hstep : renameStep g q with
    | error e =>
      have hl : renameLoop (q :: qs) g = Except.error e := by
        show (match renameStep g q with
          | Except.ok fs3 => renameLoop qs fs3
          | Except.error e => Except.error e) = Except.error e
        rw [hstep]
      rw [hl] at hok
      exact absurd hok (by simp)
    | ok g1 =>
      have hmid : findContent g1.files p = some c := by
        by_cases hq : rawMatches q = true
        · have hnr := rawMatches_nameRaw hq
          have hne : pathOf q ≠ p := by
            intro hh
            rw [show parsePath q.data = pathOf q from rfl, hh, hraw] at hnr
            exact absurd hnr (by simp)
          exact renameStep_frame g g1 q p c hstep hmem hne
        · have hq2 : rawMatches q = false := by simpa using hq
          rw [renameStep_eq_of_no_match hq2] at hstep
          injection hstep with hgg
          rw [← hgg]
          exact hmem
      have hl : renameLoop (q :: qs) g = renameLoop qs g1 := by
        show (match renameStep g q with
          | Except.ok fs3 => renameLoop qs fs3
          | Except.error e => Except.error e) = renameLoop qs g1
        rw [hstep]
      rw [hl] at hok
      exact renameLoop_frame qs g1 g2 p c hok hmid hraw

/-- The rename loop is a no-op when no input matches the rotation regex. -/
theorem renameLoop_no_raw : ∀ (ls : List String) (g : FS),
    (∀ s ∈ ls, rawMatches s = false) → renameLoop ls g = Except.ok g
  | [], _, _ => rfl
  | q :: qs, g, h => by
    have hq : rawMatches q = false := h q (List.mem_cons_self _ _)
    have hl : renameLoop (q :: qs) g = renameLoop qs g := by
      show (match renameStep g q with
        | Except.ok fs3 => renameLoop qs fs3
        | Except.error e => Except.error e) = renameLoop qs g
      rw [renameStep_eq_of_no_match hq]
    rw [hl]
    exact renameLoop_no_raw qs g (fun s hs => h s (List.mem_cons_of_mem _ hs))

/-- Inversion of the handler on a successful run. -/
theorem handler_ok_inv {cfg : HandlerCfg} {now : DateTime} {logs : List String}
    {fs fs2 : FS} (hok : handler cfg now logs fs = Except.ok fs2) :
    ∃ fs1, renameLoop logs fs = Except.ok fs1 ∧ fs2 = prunePass cfg now fs1 := by
  cases hrl : renameLoop logs fs with
  | error e =>
    have hh : handler cfg now logs fs = Except.error e := by
      show (match renameLoop logs fs with
        | Except.error e => Except.error e
        | Except.ok fs3 => Except.ok (prunePass cfg now fs3)) = Except.error e
      rw [hrl]
    rw [hh] at hok
    exact absurd hok (by simp)
  | ok fs1 =>
    have hh : handler cfg now logs fs = Except.ok (prunePass cfg now fs1) := by
      show (match renameLoop logs fs with
        | Except.error e => Except.error e
        | Except.ok fs3 => Except.ok (prunePass cfg now fs3)) =
        Except.ok (prunePass cfg now fs1)
      rw [hrl]
    rw [hh] at hok
    injection hok with hok2
    exact ⟨fs1, rfl, hok2.symm⟩

/-! ### The claims -/

/-- Claim C5: within every single handler invocation, the rename pass is
applied to all input paths and fully completes before the prune pass begins;
the handler is exactly the rename pass over the whole input list followed by
one prune pass on the post-rename state, never interleaved. -/
theorem c5_rename_before_prune (cfg : HandlerCfg) (now : DateTime) (logs : List String)
    (fs : FS) :
    handler cfg now logs fs =
      (renamePass logs fs).bind (fun fs1 => Except.ok (prunePass cfg now fs1)) :=
  handler_decomp cfg now logs fs

/-- Claim C6: the handler is idempotent on an empty input list: for every
directory state, invoking it twice in succession with `[]` produces the same
state as invoking it once (the second invocation performs only the prune
pass, which deletes nothing new). -/
theorem c6_idempotent_empty (cfg : HandlerCfg) (now : DateTime) (fs : FS) :
    (handler cfg now [] fs).bind (handler cfg now []) = handler cfg now [] fs := by
  have h0 : ∀ g : FS, handler cfg now [] g = Except.ok (prunePass cfg now g) := fun g => rfl
  rw [h0 fs]
  show handler cfg now [] (prunePass cfg now fs) = Except.ok (prunePass cfg now fs)
  rw [h0 (prunePass cfg now fs), prunePass_idem]

/-- Claim C10: if the log directory does not exist at invocation time, the
handler with an empty input list performs no file-system mutation at all and
does not raise: the prune scan is guarded by the directory-existence check. -/
theorem c10_missing_dir_noop (cfg : HandlerCfg) (now : DateTime) (fs : FS)
    (h : dirExists fs cfg.logDir = false) :
    handler cfg now [] fs = Except.ok fs := by
  have h0 : handler cfg now [] fs = Except.ok (prunePass cfg now fs) := rfl
  rw [h0, prunePass_filter, if_neg (by simp [h])]

/-- Witness for C10 at a concrete state whose directory list does not contain
the log directory. -/
theorem c10_missing_dir_noop_witness :
    handler (make_retention_handler "10 days" "/logs/app.log") ⟨20490, 0⟩ []
        ⟨[(pathOf "/tmp/x.log", 1)], []⟩ =
      Except.ok ⟨[(pathOf "/tmp/x.log", 1)], []⟩ :=
  c10_missing_dir_noop (make_retention_handler "10 days" "/logs/app.log") ⟨20490, 0⟩
    ⟨[(pathOf "/tmp/x.log", 1)], []⟩ (by decide)

/-- Claim C9 (implicit): `_parse_retention_days` is total and non-negative —
for every input string it returns a non-negative integer and never raises; in
particular `"0 days"` returns `0` (not the default 10), so a zero-day
retention is representable and makes the cutoff equal to the current time. -/
theorem c9_retention_total :
    (∀ s : String, 0 ≤ parse_retention_days s) ∧
      parse_retention_days "0 days" = 0 ∧
      (∀ t : DateTime, dtSubDays t (parse_retention_days "0 days") = t) := by
  refine ⟨?_, by decide, ?_⟩
  · intro s
    unfold parse_retention_days
    cases h : retMatch (pstrip s.data) with
    | none => norm_num
    | some vw =>
      obtain ⟨v, w⟩ := vw
      cases w
      · simp
      · show 0 ≤ (v : Int) * 7
        exact mul_nonneg (Int.natCast_nonneg v) (by norm_num)
  · intro t
    have h : parse_retention_days "0 days" = 0 := by decide
    rw [h]
    show (⟨t.days - 0, t.tod⟩ : DateTime) = t
    simp

/-- Counterexample to claim C7: the handler raises when a delete is attempted
on a missing file in the rename pass.  Concretely: the input path matches the
rotation regex, its canonical name already exists on disk, but the raw file
itself is missing, so `os.remove` raises `FileNotFoundError`.  The claim's
assertion that a missing file during deletion is tolerated silently in both
the rename pass and the prune pass is therefore false for the rename pass. -/
theorem c7_raise_counterexample :
    rawMatches "/logs/app.log.2026-02-06_00-00-00_000000" = true ∧
      findContent [(pathOf "/logs/app_20260206.log", 7)]
        (pathOf (log_namer "/logs/app.log.2026-02-06_00-00-00_000000")) = some 7 ∧
      findContent [(pathOf "/logs/app_20260206.log", 7)]
        (pathOf "/logs/app.log.2026-02-06_00-00-00_000000") = none ∧
      handler (make_retention_handler "10 days" "/logs/app.log") ⟨20490, 0⟩
          ["/logs/app.log.2026-02-06_00-00-00_000000"]
          ⟨[(pathOf "/logs/app_20260206.log", 7)], [pathOf "/logs"]⟩ =
        Except.error () := by
  refine ⟨by decide, by decide, by decide, ?_⟩
  rfl

/-- Claim C7, amended: the handler never raises on malformed filenames or
unparsable dates — an invocation whose inputs contain no path matching the
rotation regex completes without error and performs only the prune pass,
which tolerates everything (missing files included, via
`unlink(missing_ok=True)`); in the rename pass, however, a raw-matching input
that is missing on disk raises (`os.remove`/`os.rename`). -/
theorem c7_no_raise_amended (cfg : HandlerCfg) (now : DateTime) (logs : List String)
    (fs : FS) (h : ∀ s ∈ logs, rawMatches s = false) :
    handler cfg now logs fs = Except.ok (prunePass cfg now fs) := by
  have hrl := renameLoop_no_raw logs fs h
  show (match renameLoop logs fs with
    | Except.error e => Except.error e
    | Except.ok fs3 => Except.ok (prunePass cfg now fs3)) =
    Except.ok (prunePass cfg now fs)
  rw [hrl]

/-- Witness for the amended C7: a malformed input list (an active-log path
and a junk name) is processed without error. -/
theorem c7_no_raise_amended_witness :
    handler (make_retention_handler "10 days" "/logs/app.log") ⟨20490, 0⟩
        ["/logs/app.log", "not a rotated file"] ⟨[], [pathOf "/logs"]⟩ =
      Except.ok (prunePass (make_retention_handler "10 days" "/logs/app.log") ⟨20490, 0⟩
        ⟨[], [pathOf "/logs"]⟩) :=
  c7_no_raise_amended (make_retention_handler "10 days" "/logs/app.log") ⟨20490, 0⟩
    ["/logs/app.log", "not a rotated file"] ⟨[], [pathOf "/logs"]⟩ (by decide)

theorem split_run {p : Char → Bool} (xs ys : List Char)
    (h1 : ∀ c ∈ xs, p c = true) (h2 : ∀ y ys2, ys = y :: ys2 → p y = false) :
    (xs ++ ys).takeWhile p = xs ∧ (xs ++ ys).dropWhile p = ys := by
  induction xs with
  | nil =>
    cases ys with
    | nil => simp
    | cons y ys2 =>
      have hy := h2 y ys2 rfl
      simp only [List.nil_append]
      constructor
      · rw [List.takeWhile_cons]
        simp [hy]
      · rw [List.dropWhile_cons]
        simp [hy]
  | cons x xs2 ih =>
    have hx : p x = true := h1 x (List.mem_cons_self _ _)
    obtain ⟨ih1, ih2⟩ := ih (fun c hc => h1 c (List.mem_cons_of_mem _ hc))
    constructor
    · show List.takeWhile p (x :: (xs2 ++ ys)) = x :: xs2
      rw [List.takeWhile_cons]
      simp [hx, ih1]
    · show List.dropWhile p (x :: (xs2 ++ ys)) = ys
      rw [List.dropWhile_cons]
      simp [hx, ih2]

theorem startsWithL_cons {a : Char} {pat cs : List Char}
    (h : startsWithL (a :: pat) cs = true) :
    ∃ cs2, cs = a :: cs2 ∧ startsWithL pat cs2 = true := by
  cases cs with
  | nil => simp [startsWithL] at h
  | cons c cs2 =>
    unfold startsWithL at h
    by_cases hac : a = c
    · subst hac
      refine ⟨cs2, rfl, ?_⟩
      simpa using h
    · rw [if_neg hac] at h
      simp at h

theorem isSpc_not_isDig {c : Char} (h : isSpc c = true) : isDig c = false := by
  unfold isSpc at h
  simp only [Bool.or_eq_true, decide_eq_true_eq] at h
  have hlt : c.toNat < 48 := by
    rcases h with ((((h | h) | h) | h) | h) | h <;> rw [h] <;> decide
  unfold isDig
  have h2 : ¬ (48 ≤ c.toNat) := by omega
  simp [h2]

/-- Claim C2: `_parse_retention_days` returns the leading integer unchanged
when the following unit word is day/days, returns it multiplied by 7 when the
unit contains `week`, and returns the default 10 without raising when the
string does not match the pattern (malformed strings, missing units, negative
numbers included); and the five concrete values of the spec hold. -/
theorem c2_parse_retention :
    (parse_retention_days "10 days" = 10 ∧ parse_retention_days "1 day" = 1 ∧
      parse_retention_days "2 weeks" = 14 ∧ parse_retention_days "1 week" = 7 ∧
      parse_retention_days "invalid" = 10 ∧ parse_retention_days "-3 days" = 10) ∧
    (∀ (s : String) (ds sp rest : List Char),
      pstrip s.data = ds ++ sp ++ rest → ds ≠ [] → (∀ c ∈ ds, isDig c = true) →
      (∀ c ∈ sp, isSpc c = true) →
      ((startsWithL ['d', 'a', 'y'] rest = true →
          parse_retention_days s = (natOfDigits ds : Int)) ∧
        (startsWithL ['w', 'e', 'e', 'k'] rest = true →
          parse_retention_days s = (natOfDigits ds : Int) * 7))) ∧
    (∀ s : String, retMatch (pstrip s.data) = none → parse_retention_days s = 10) := by
  refine ⟨⟨by decide, by decide, by decide, by decide, by decide, by decide⟩, ?_, ?_⟩
  · intro s ds sp rest hs hne hdig hspc
    have hempty : ds.isEmpty = false := by
      cases ds with
      | nil => exact absurd rfl hne
      | cons a as => rfl
    have hassoc : ds ++ sp ++ rest = ds ++ (sp ++ rest) := List.append_assoc ds sp rest
    constructor
    · intro hday
      obtain ⟨rest2, hr, _⟩ := startsWithL_cons hday
      have hsplit1 := split_run ds (sp ++ rest) hdig (by
        intro y ys2 hy
        cases sp with
        | nil =>
          simp only [List.nil_append] at hy
          rw [hy] at hr
          have : y = 'd' := by
            have := hr
            simp only [List.cons.injEq] at this
            exact this.1
          rw [this]
          decide
        | cons c sp2 =>
          have : y = c := by
            simp only [List.cons_append, List.cons.injEq] at hy
            exact hy.1.symm
          rw [this]
          exact isSpc_not_isDig (hspc c (List.mem_cons_self _ _)))
      have hsplit2 := split_run sp rest hspc (by
        intro y ys2 hy
        rw [hy] at hr
        have : y = 'd' := by
          have := hr
          simp only [List.cons.injEq] at this
          exact this.1
        rw [this]
        decide)
      have h1 : (pstrip s.data).takeWhile isDig = ds := by
        rw [hs, hassoc]
        exact hsplit1.1
      have h2 : ((pstrip s.data).dropWhile isDig).dropWhile isSpc = rest := by
        rw [hs, hassoc, hsplit1.2]
        exact hsplit2.2
      have hrm : retMatch (pstrip s.data) = some (natOfDigits ds, false) := by
        unfold retMatch
        simp [h1, h2, hempty, hday]
      unfold parse_retention_days
      rw [hrm]
      rfl
    · intro hweek
      obtain ⟨rest2, hr, _⟩ := startsWithL_cons hweek
      have hsplit1 := split_run ds (sp ++ rest) hdig (by
        intro y ys2 hy
        cases sp with
        | nil =>
          simp only [List.nil_append] at hy
          rw [hy] at hr
          have : y = 'w' := by
            have := hr
            simp only [List.cons.injEq] at this
            exact this.1
          rw [this]
          decide
        | cons c sp2 =>
          have : y = c := by
            simp only [List.cons_append, List.cons.injEq] at hy
            exact hy.1.symm
          rw [this]
          exact isSpc_not_isDig (hspc c (List.mem_cons_self _ _)))
      have hsplit2 := split_run sp rest hspc (by
        intro y ys2 hy
        rw [hy] at hr
        have : y = 'w' := by
          have := hr
          simp only [List.cons.injEq] at this
          exact this.1
        rw [this]
        decide)
      have h1 : (pstrip s.data).takeWhile isDig = ds := by
        rw [hs, hassoc]
        exact hsplit1.1
      have h2 : ((pstrip s.data).dropWhile isDig).dropWhile isSpc = rest := by
        rw [hs, hassoc, hsplit1.2]
        exact hsplit2.2
      have hnotday : startsWithL ['d', 'a', 'y'] rest = false := by
        rw [hr]
        show (if 'd' = 'w' then startsWithL ['a', 'y'] rest2 else false) = false
        rw [if_neg (by decide)]
      have hrm : retMatch (pstrip s.data) = some (natOfDigits ds, true) := by
        unfold retMatch
        simp [h1, h2, hempty, hnotday, hweek]
      unfold parse_retention_days
      rw [hrm]
      rfl
  · intro s h
    unfold parse_retention_days
    rw [h]

/-- Witness for C2's universal clauses at `"10 days"` and `"3 weeks"`. -/
theorem c2_parse_retention_witness :
    parse_retention_days "10 days" = ((natOfDigits ['1', '0'] : Nat) : Int) ∧
      parse_retention_days "3 weeks" = ((natOfDigits ['3'] : Nat) : Int) * 7 := by
  constructor
  · exact (c2_parse_retention.2.1 "10 days" ['1', '0'] [' '] "days".data (by decide)
      (by decide) (by decide) (by decide)).1 (by decide)
  · exact (c2_parse_retention.2.1 "3 weeks" ['3'] [' '] "weeks".data (by decide)
      (by decide) (by decide) (by decide)).2 (by decide)

/-- Claim C1: for every raw rotated-file path whose tail matches the rotation
pattern, `_log_namer` returns `{stem}_{YYYY}{MM}{DD}{ext}` in the same parent
directory as the input, where stem and extension come from the portion
preceding the matched suffix; for every path whose tail does not match, it
returns the input unchanged; and the three concrete values of the spec
hold. -/
theorem c1_log_namer :
    (∀ (s : String) (i : Nat) (y m d : List Char),
      findRotAux s.data 0 = some (i, y, m, d) →
      parentP (parsePath (log_namer s).data) = parentP (parsePath (s.data.take i)) ∧
        nameOf (parsePath (log_namer s).data) =
          stemOf (parsePath (s.data.take i)) ++
            '_' :: (y ++ m ++ d ++ suffixOf (parsePath (s.data.take i)))) ∧
    (∀ s : String, findRotAux s.data 0 = none → log_namer s = s) ∧
    (log_namer "/logs/app.log.2026-02-06_00-00-00_000000" = "/logs/app_20260206.log" ∧
      log_namer "/logs/app_batch.log.2026-01-15_23-59-59_999999" =
        "/logs/app_batch_20260115.log" ∧
      log_namer "/logs/app.log" = "/logs/app.log") := by
  refine ⟨?_, ?_, by decide, by decide, by decide⟩
  · intro s i y m d h
    have hL : parsePath (log_namer s).data = parsePath (logNamerL s.data) := rfl
    rw [hL, logNamer_structure h]
    constructor
    · unfold parentP
      simp
    · unfold nameOf
      simp
  · intro s h
    have hL : logNamerL s.data = s.data := by
      unfold logNamerL
      rw [h]
    show String.mk (logNamerL s.data) = s
    rw [hL]

/-- Witness for C1's universal clauses at the spec's batch example. -/
theorem c1_log_namer_witness :
    (parentP (parsePath (log_namer "/logs/app_batch.log.2026-01-15_23-59-59_999999").data) =
        parentP (parsePath (("/logs/app_batch.log.2026-01-15_23-59-59_999999" :
          String).data.take 19)) ∧
      nameOf (parsePath (log_namer "/logs/app_batch.log.2026-01-15_23-59-59_999999").data) =
        stemOf (parsePath (("/logs/app_batch.log.2026-01-15_23-59-59_999999" :
            String).data.take 19)) ++
          '_' :: ("2026".data ++ "01".data ++ "15".data ++
            suffixOf (parsePath (("/logs/app_batch.log.2026-01-15_23-59-59_999999" :
              String).data.take 19))) ) ∧
    log_namer "/logs/app.log" = "/logs/app.log" :=
  ⟨c1_log_namer.1 "/logs/app_batch.log.2026-01-15_23-59-59_999999" 19 "2026".data "01".data
      "15".data (by decide),
    c1_log_namer.2.1 "/logs/app.log" (by decide)⟩

/-- Counterexample to claim C3: when the collision's canonical file carries a
date older than the retention cutoff, the invocation does not leave the
existing canonical file unchanged — the rename pass deletes the raw file, but
the prune pass of the same invocation then deletes the canonical file, so
after handling neither file exists. -/
theorem c3_collision_counterexample :
    rawMatches "/logs/app.log.2020-01-01_00-00-00_000000" = true ∧
      findContent
        [(pathOf "/logs/app_20200101.log", 1),
          (pathOf "/logs/app.log.2020-01-01_00-00-00_000000", 2)]
        (pathOf (log_namer "/logs/app.log.2020-01-01_00-00-00_000000")) = some 1 ∧
      (handler (make_retention_handler "1 day" "/logs/app.log") ⟨30000, 0⟩
          ["/logs/app.log.2020-01-01_00-00-00_000000"]
          ⟨[(pathOf "/logs/app_20200101.log", 1),
            (pathOf "/logs/app.log.2020-01-01_00-00-00_000000", 2)],
            [pathOf "/logs"]⟩).map
        (fun g => findContent g.files (pathOf "/logs/app_20200101.log")) =
        Except.ok none := by
  refine ⟨by decide, by decide, ?_⟩
  rfl

/-- Claim C3, amended: when a raw input's canonical name already names an
existing file, the rename step deletes the raw input file and leaves the
canonical file and its content unchanged; the canonical file then also
survives the invocation's prune pass provided the prune pass does not select
it (its date is not strictly before the cutoff); and key-uniqueness of the
file table (at most one file per path, hence per `(stem, date)` pair) is
preserved. -/
theorem c3_collision_amended (cfg : HandlerCfg) (now : DateTime) (fs : FS) (p : String)
    (c cp : Nat)
    (hraw : rawMatches p = true)
    (hcanon : findContent fs.files (pathOf (log_namer p)) = some c)
    (hrawfile : findContent fs.files (pathOf p) = some cp) :
    renameStep fs p = Except.ok (unlink fs (pathOf p)) ∧
      findContent (unlink fs (pathOf p)).files (pathOf (log_namer p)) = some c ∧
      (pruneKills cfg now (pathOf (log_namer p)) = false →
        findContent (prunePass cfg now (unlink fs (pathOf p))).files
          (pathOf (log_namer p)) = some c) ∧
      ((fs.files.map Prod.fst).Nodup →
        ((prunePass cfg now (unlink fs (pathOf p))).files.map Prod.fst).Nodup) := by
  unfold rawMatches at hraw
  cases hf : findRotAux p.data 0 with
  | none => rw [hf] at hraw; simp at hraw
  | some ig =>
    obtain ⟨i, y, m, d⟩ := ig
    have hne : pathOf (log_namer p) ≠ pathOf p := by
      show parsePath (log_namer p).data ≠ parsePath p.data
      exact canon_ne hf
    have hex : pexists fs (pathOf (log_namer p)) = true := by
      unfold pexists
      rw [hcanon]
      rfl
    have hex2 : pexists fs (pathOf p) = true := by
      unfold pexists
      rw [hrawfile]
      rfl
    have hstep : renameStep fs p = Except.ok (unlink fs (pathOf p)) := by
      rw [renameStep_eq_of_match hf, if_pos hex]
      unfold osRemove
      rw [if_pos hex2]
    have hval : findContent (unlink fs (pathOf p)).files (pathOf (log_namer p)) = some c := by
      show findContent (eraseKey fs.files (pathOf p)) (pathOf (log_namer p)) = some c
      rw [findContent_eraseKey, if_neg hne]
      exact hcanon
    have hnd1 : (fs.files.map Prod.fst).Nodup →
        ((unlink fs (pathOf p)).files.map Prod.fst).Nodup := fun hnd =>
      List.Nodup.sublist (List.Sublist.map Prod.fst (List.filter_sublist fs.files)) hnd
    refine ⟨hstep, hval, ?_, ?_⟩
    · intro hk
      rw [prunePass_filter]
      by_cases hd : dirExists (unlink fs (pathOf p)) cfg.logDir = true
      · rw [if_pos hd]
        show findContent ((unlink fs (pathOf p)).files.filter
          (fun e => !pruneKills cfg now e.1)) (pathOf (log_namer p)) = some c
        rw [findContent_filter, if_neg (by simp [hk])]
        exact hval
      · rw [if_neg hd]
        exact hval
    · intro hnd
      rw [prunePass_filter]
      by_cases hd : dirExists (unlink fs (pathOf p)) cfg.logDir = true
      · rw [if_pos hd]
        show (((unlink fs (pathOf p)).files.filter
          (fun e => !pruneKills cfg now e.1)).map Prod.fst).Nodup
        exact List.Nodup.sublist
          (List.Sublist.map Prod.fst (List.filter_sublist _)) (hnd1 hnd)
      · rw [if_neg hd]
        exact hnd1 hnd

/-- Witness for the amended C3 in the spec's collision scenario, with a
canonical date inside the retention window. -/
theorem c3_collision_amended_witness :
    renameStep
        ⟨[(pathOf "/logs/app_20260205.log", 1),
          (pathOf "/logs/app.log.2026-02-05_00-00-00_000000", 2)], [pathOf "/logs"]⟩
        "/logs/app.log.2026-02-05_00-00-00_000000" =
      Except.ok (unlink
        ⟨[(pathOf "/logs/app_20260205.log", 1),
          (pathOf "/logs/app.log.2026-02-05_00-00-00_000000", 2)], [pathOf "/logs"]⟩
        (pathOf "/logs/app.log.2026-02-05_00-00-00_000000")) ∧
    findContent (prunePass (make_retention_handler "10 days" "/logs/app.log") ⟨20490, 0⟩
        (unlink
          ⟨[(pathOf "/logs/app_20260205.log", 1),
            (pathOf "/logs/app.log.2026-02-05_00-00-00_000000", 2)], [pathOf "/logs"]⟩
          (pathOf "/logs/app.log.2026-02-05_00-00-00_000000"))).files
      (pathOf (log_namer "/logs/app.log.2026-02-05_00-00-00_000000")) = some 1 := by
  have h := c3_collision_amended (make_retention_handler "10 days" "/logs/app.log")
    ⟨20490, 0⟩
    ⟨[(pathOf "/logs/app_20260205.log", 1),
      (pathOf "/logs/app.log.2026-02-05_00-00-00_000000", 2)], [pathOf "/logs"]⟩
    "/logs/app.log.2026-02-05_00-00-00_000000" 1 2 (by decide) (by decide) (by decide)
  exact ⟨h.1, h.2.2.1 (by decide)⟩

/-- Counterexample to claim C4: the prune pass deletes an entry whose name
does not match `{stem}_{8 digits}{ext}` exactly — a name with one extra
trailing newline character is accepted by the source's `$` anchor (which also
matches just before a final newline) and the file is deleted, refuting
"anchored, no extra characters". -/
theorem c4_prune_counterexample :
    canonMatchExact (make_retention_handler "10 days" "/logs/app.log").stem
        (make_retention_handler "10 days" "/logs/app.log").ext
        (nameOf (pathOf "/logs/app_20000101.log\n")) = false ∧
      findContent [(pathOf "/logs/app_20000101.log\n", 5)]
        (pathOf "/logs/app_20000101.log\n") = some 5 ∧
      (prunePass (make_retention_handler "10 days" "/logs/app.log") ⟨30000, 0⟩
          ⟨[(pathOf "/logs/app_20000101.log\n", 5)], [pathOf "/logs"]⟩).files = [] := by
  refine ⟨by decide, by decide, ?_⟩
  rfl

/-- Claim C4, amended: in the prune pass, an entry of the log directory is
deleted if and only if its name matches the anchored pattern
`{stem}_{8 digits}{ext}` up to Python's `$` semantics (which also accepts one
final trailing newline), the 8-digit field parses as a valid `%Y%m%d`
calendar date, and that date is strictly earlier than now minus the retention
days; entries whose 8-digit field fails to parse are left in place and not
treated as an error. -/
theorem c4_prune_amended (cfg : HandlerCfg) (now : DateTime) (fs : FS) (p : PPath) (c : Nat)
    (hdir : dirExists fs cfg.logDir = true)
    (hmem : findContent fs.files p = some c)
    (hin : inDir cfg.logDir p = true) :
    findContent (prunePass cfg now fs).files p = none ↔
      ∃ ymd y m d, canonMatch cfg.stem cfg.ext (nameOf p) = some ymd ∧
        strptimeYmd ymd = some (y, m, d) ∧
        dtLt (dtOfYmd y m d) (dtSubDays now cfg.maxAge) = true := by
  rw [prunePass_filter, if_pos hdir]
  show findContent (fs.files.filter (fun e => !pruneKills cfg now e.1)) p = none ↔ _
  rw [findContent_filter]
  constructor
  · intro hnone
    by_cases hk : pruneKills cfg now p = true
    · have hsd : shouldDelete cfg now (nameOf p) = true := by
        unfold pruneKills at hk
        exact ((Bool.and_eq_true _ _).mp hk).2
      exact (shouldDelete_iff cfg now (nameOf p)).mp hsd
    · rw [if_neg hk, hmem] at hnone
      exact absurd hnone (by simp)
  · intro hex
    have hsd : shouldDelete cfg now (nameOf p) = true :=
      (shouldDelete_iff cfg now (nameOf p)).mpr hex
    have hk : pruneKills cfg now p = true := by
      unfold pruneKills
      rw [hin, hsd]
      rfl
    rw [if_pos hk]

/-- Witness for the amended C4: a 31-day-old canonical file under a 10-day
retention is deleted by the prune pass. -/
theorem c4_prune_amended_witness :
    findContent (prunePass (make_retention_handler "10 days" "/logs/app.log") ⟨30000, 0⟩
        ⟨[(pathOf "/logs/app_20000101.log", 5)], [pathOf "/logs"]⟩).files
      (pathOf "/logs/app_20000101.log") = none :=
  (c4_prune_amended (make_retention_handler "10 days" "/logs/app.log") ⟨30000, 0⟩
      ⟨[(pathOf "/logs/app_20000101.log", 5)], [pathOf "/logs"]⟩
      (pathOf "/logs/app_20000101.log") 5 (by decide) (by decide) (by decide)).mpr
    ⟨"20000101".data, 2000, 1, 1, by decide, by decide, by decide⟩

/-- Claim C8: a file in the log directory whose name matches neither the
raw-rotation pattern nor the prune pattern `{stem}_{8 digits}{ext}` is
neither renamed nor deleted by any successful handler invocation — its entry
and content are unchanged; in particular the active log file `{stem}{ext}`
(whose name matches neither pattern) is never touched, and input paths not
matching the raw pattern are themselves left untouched by the rename pass. -/
theorem c8_frame_untouched :
    (∀ (cfg : HandlerCfg) (now : DateTime) (logs : List String) (fs fs2 : FS)
      (p : PPath) (c : Nat),
      handler cfg now logs fs = Except.ok fs2 →
      findContent fs.files p = some c →
      nameRaw (nameOf p) = false →
      canonMatch cfg.stem cfg.ext (nameOf p) = none →
      findContent fs2.files p = some c) ∧
    (∀ (fs : FS) (s : String), rawMatches s = false → renameStep fs s = Except.ok fs) := by
  constructor
  · intro cfg now logs fs fs2 p c hok hmem hraw hcanon
    obtain ⟨fs1, hrl, hps⟩ := handler_ok_inv hok
    have hmid : findContent fs1.files p = some c :=
      renameLoop_frame logs fs fs1 p c hrl hmem hraw
    have hk : pruneKills cfg now p = false := by
      unfold pruneKills
      rw [shouldDelete_none hcanon]
      simp
    rw [hps, prunePass_filter]
    by_cases hd : dirExists fs1 cfg.logDir = true
    · rw [if_pos hd]
      show findContent (fs1.files.filter (fun e => !pruneKills cfg now e.1)) p = some c
      rw [findContent_filter, if_neg (by simp [hk])]
      exact hmid
    · rw [if_neg hd]
      exact hmid
  · intro fs s hs
    exact renameStep_eq_of_no_match hs

/-- Witness for C8: the active log file survives an invocation that renames a
rotated backup in the same directory, and an input path without the rotation
suffix is left untouched by the rename step. -/
theorem c8_frame_untouched_witness :
    findContent (prunePass (make_retention_handler "10 days" "/logs/app.log") ⟨20490, 0⟩
        ⟨[(pathOf "/logs/app_20260205.log", 2), (pathOf "/logs/app.log", 1)],
          [pathOf "/logs"]⟩).files (pathOf "/logs/app.log") = some 1 ∧
    renameStep ⟨[(pathOf "/logs/app.log", 1)], [pathOf "/logs"]⟩ "/logs/app.log" =
      Except.ok ⟨[(pathOf "/logs/app.log", 1)], [pathOf "/logs"]⟩ :=
  ⟨c8_frame_untouched.1 (make_retention_handler "10 days" "/logs/app.log") ⟨20490, 0⟩
    ["/logs/app.log.2026-02-05_00-00-00_000000"]
    ⟨[(pathOf "/logs/app.log", 1),
      (pathOf "/logs/app.log.2026-02-05_00-00-00_000000", 2)], [pathOf "/logs"]⟩
    (prunePass (make_retention_handler "10 days" "/logs/app.log") ⟨20490, 0⟩
      ⟨[(pathOf "/logs/app_20260205.log", 2), (pathOf "/logs/app.log", 1)],
        [pathOf "/logs"]⟩)
    (pathOf "/logs/app.log") 1 (by rfl) (by decide) (by decide) (by decide),
    c8_frame_untouched.2 ⟨[(pathOf "/logs/app.log", 1)], [pathOf "/logs"]⟩
      "/logs/app.log" (by decide)⟩
